import Mathlib

/-!
Shallow embedding of the PrivateBlockchain repository (src/blockchain.js), a
single-node star-registry ledger: a hash-linked append-only list of blocks,
per-block digest self-checks, a whole-chain audit (`validateChain`), and a
time-boxed signature-verification gate (`submitStar`).

The `Blockchain` methods of src/blockchain.js are translated one-for-one.
The `Block` class lives in src/block.js, which is not part of the snapshot;
its members (`constructor`, `validate`, `getBData`) are modelled from the
spec (spec.md section 4.1), as is the SHA-256 digest, modelled as a
collision-free fingerprint of the block's fields with the `hash` field
excluded.  The ambient wall clock and the external signature library
(`bitcoinjs-message`) are passed as explicit parameters.
-/

namespace PBC

/-- Star payload carried by a claim block (`{ra, dec, story}`). -/
structure Star where
  ra : String
  dec : String
  story : String
deriving DecidableEq

/-- Decoded form of a block body: the Genesis marker `{data: 'Genesis Block'}`
or a claim `{owner, star}`. -/
inductive BodyData where
  | genesisData (data : String)
  | claimData (owner : String) (star : Star)
deriving DecidableEq

/-- Modelled from the spec: the opaque, reversibly-encoded payload stored in
`block.body` (hex-encoded JSON in the JS code).  The encoding is injective
with a total inverse, so it is modelled as a wrapper around the decoded
value; `Block.getBData` is the inverse. -/
structure EncodedBody where
  decoded : BodyData
deriving DecidableEq

/-- Modelled from the spec: the SHA-256 digest `SHA256(JSON.stringify(block))`
computed at seal time, when the block's own `hash` field is still null, i.e. a
fingerprint of `(height, time, previousBlockHash, body)`.  SHA-256 is modelled
as a collision-free digest: the digest value is the digested field tuple
itself, with one constructor per shape of `previousBlockHash`. -/
inductive Digest where
  | root (height : Int) (time : Nat) (body : EncodedBody)
  | link (height : Int) (time : Nat) (prev : Digest) (body : EncodedBody)
deriving DecidableEq

/-- One ledger entry, with the field set of src/block.js:
`{hash, height, body, time, previousBlockHash}`.  `hash` and
`previousBlockHash` are `none` where the JS fields are `null`. -/
structure Block where
  hash : Option Digest
  height : Int
  body : EncodedBody
  time : Nat
  previousBlockHash : Option Digest
deriving DecidableEq

/-- The digest of a block's current fields, excluding the stored `hash`. -/
def digestOf (b : Block) : Digest :=
  match b.previousBlockHash with
  | none => Digest.root b.height b.time b.body
  | some p => Digest.link b.height b.time p b.body

/-- Modelled from the spec (src/block.js absent): `block.validate()` recomputes
the digest from the current field values, excluding the stored `hash`, and
reports whether it equals the stored `hash` (spec 4.1 `selfCheck`). -/
def Block.validate (b : Block) : Bool :=
  decide (b.hash = some (digestOf b))

/-- Modelled from the spec (src/block.js absent): `block.getBData()` decodes
the stored body back to its structured payload. -/
def Block.getBData (b : Block) : BodyData :=
  b.body.decoded

/-- Modelled from the spec (src/block.js absent): `new Block(data)` stores the
encoded payload and leaves `hash`/`previousBlockHash` null and the position
fields zero; `_addBlock` overwrites all of them at seal time. -/
def mkBlock (d : BodyData) : Block :=
  { hash := none, height := 0, body := ⟨d⟩, time := 0, previousBlockHash := none }

/-- The chain state: the `this.chain` array and the `this.height` counter of
the `Blockchain` class (src/blockchain.js lines 24-28). -/
structure Blockchain where
  chain : List Block
  height : Int
deriving DecidableEq

/-- The two error reasons pushed by `validateChain`
(src/blockchain.js lines 245 and 254). -/
inductive ChainError where
  | blockNotValid
  | incompatiblePreviousHash
deriving DecidableEq

/-- Per-block self-check step of `validateChain`
(src/blockchain.js lines 242-247). -/
def selfErr (b : Block) : List ChainError :=
  if Block.validate b then [] else [ChainError.blockNotValid]

/-- Per-block linkage check of `validateChain` (src/blockchain.js lines
249-257): skipped for index 0, otherwise compares `previousBlockHash` with the
preceding block's `hash`. -/
def linkErr (prev : Option Block) (b : Block) : List ChainError :=
  match prev with
  | none => []
  | some p => if b.previousBlockHash ≠ p.hash then [ChainError.incompatiblePreviousHash] else []

/-- The loop of `validateChain` (src/blockchain.js lines 238-258), walking the
chain in ascending index order and carrying the preceding block (`none` only
at index 0).  Per block it appends the self-check error and then the linkage
error, never stopping early. -/
def walk (prev : Option Block) : List Block → List ChainError
  | [] => []
  | b :: rest => selfErr b ++ linkErr prev b ++ walk (some b) rest

/-- `validateChain()` (src/blockchain.js lines 234-261): resolves with the
accumulated list of errors over the whole chain. -/
def Blockchain.validateChain (self : Blockchain) : List ChainError :=
  walk none self.chain

/-- The error thrown by `_addBlock` when the pre-existing chain fails
validation (src/blockchain.js line 86); the spec calls it
`ChainCorruptError`. -/
inductive AddBlockError where
  | chainCorrupt
deriving DecidableEq

/-- The sealing part of `_addBlock` (src/blockchain.js lines 67-79): assign
`height := this.height + 1`, stamp the current time, set `previousBlockHash`
to the tail block's hash when the chain is nonempty, then compute `hash` from
the resulting fields. -/
def sealBlock (self : Blockchain) (now : Nat) (block : Block) : Block :=
  let b1 : Block := { block with height := self.height + 1, time := now }
  let b2 : Block :=
    match self.chain.getLast? with
    | some tail => { b1 with previousBlockHash := tail.hash }
    | none => b1
  { b2 with hash := some (digestOf b2) }

/-- `_addBlock(block)` (src/blockchain.js lines 63-99): seal the candidate,
validate the *existing* chain, and either refuse (chain and height counter
untouched) or push the sealed block and advance `this.height`.  Resolves with
the sealed block on success. -/
def Blockchain.addBlock (self : Blockchain) (now : Nat) (block : Block) :
    Except AddBlockError Block × Blockchain :=
  let b := sealBlock self now block
  if (Blockchain.validateChain self).length > 0 then
    (Except.error AddBlockError.chainCorrupt, self)
  else
    (Except.ok b, { chain := self.chain ++ [b], height := b.height })

/-- The Genesis payload `{data: 'Genesis Block'}` (src/blockchain.js line 37). -/
def genesisBody : BodyData :=
  BodyData.genesisData "Genesis Block"

/-- `initializeChain()` (src/blockchain.js lines 35-40): when the height
sentinel is still -1, append the Genesis block through `_addBlock`. -/
def initializeChain (self : Blockchain) (now : Nat) : Blockchain :=
  if self.height = -1 then (Blockchain.addBlock self now (mkBlock genesisBody)).2 else self

/-- The `Blockchain` constructor (src/blockchain.js lines 24-28): empty chain,
height -1, then immediate initialization. -/
def newBlockchain (now : Nat) : Blockchain :=
  initializeChain { chain := [], height := -1 } now

/-- `getChainHeight()` (src/blockchain.js lines 45-49). -/
def Blockchain.getChainHeight (self : Blockchain) : Int :=
  self.height

/-- `getBlockByHeight(height)` (src/blockchain.js lines 193-203): first
element of the chain filtered by exact height, `none` when absent. -/
def Blockchain.getBlockByHeight (self : Blockchain) (h : Int) : Option Block :=
  (self.chain.filter (fun p => decide (p.height = h))).head?

/-- The accumulating loop of `getStarsByWalletAddress` (src/blockchain.js
lines 216-222): for each block of height > 0, decode the body and push its
star when the owner matches. -/
def starsGo (address : String) : List Block → List Star → List Star
  | [], stars => stars
  | b :: rest, stars =>
    starsGo address rest
      (if b.height > 0 then
        match Block.getBData b with
        | BodyData.claimData owner s => if owner = address then stars ++ [s] else stars
        | BodyData.genesisData _ => stars
      else stars)

/-- `getStarsByWalletAddress(address)` (src/blockchain.js lines 211-226). -/
def Blockchain.getStarsByWalletAddress (self : Blockchain) (address : String) : List Star :=
  starsGo address self.chain []

/-- Restatement of the spec's words for `starsByOwner` (spec 4.2): the decoded
star payloads of the blocks with height > 0 whose decoded body names the given
owner, in chain order.  Stated separately from the translated code so the two
can be compared. -/
def starsOwnedSpec (self : Blockchain) (address : String) : List Star :=
  self.chain.filterMap (fun b =>
    if b.height > 0 then
      match b.body.decoded with
      | BodyData.claimData owner s => if owner = address then some s else none
      | BodyData.genesisData _ => none
    else none)

/-- `requestMessageOwnershipVerification(address)` (src/blockchain.js lines
107-112): the challenge string `address + ":" + seconds + ":starRegistry"`.
The wall clock is modelled at second resolution: for any realistic timestamp
the JS `new Date().getTime().toString().slice(0,-3)` is the decimal string of
the Unix time in whole seconds, i.e. `Nat.repr nowSec`. -/
def requestMessageOwnershipVerification (address : String) (nowSec : Nat) : String :=
  address ++ ":" ++ Nat.repr nowSec ++ ":starRegistry"

/-- JS `String.prototype.split` with a one-character separator, on character
lists: splits into the (possibly empty) chunks between separators. -/
def splitChars (sep : Char) : List Char → List (List Char)
  | [] => [[]]
  | c :: cs =>
    match splitChars sep cs with
    | [] => [[]]
    | g :: gs => if c = sep then [] :: g :: gs else (c :: g) :: gs

/-- `message.split(sep)` as used in src/blockchain.js line 134. -/
def jsSplit (sep : Char) (s : String) : List String :=
  (splitChars sep s.data).map (fun l => String.mk l)

/-- Decimal value of a digit string (most significant first). -/
def digitsVal (l : List Char) : Nat :=
  l.foldl (fun n c => 10 * n + (c.toNat - 48)) 0

/-- Longest leading run of decimal digits, `none` when there is none. -/
def parseDigits (l : List Char) : Option Nat :=
  match l.takeWhile (fun c => c.isDigit) with
  | [] => none
  | ds => some (digitsVal ds)

/-- JS `parseInt(s)` restricted to base 10: skip leading whitespace, read an
optional sign and then the longest digit prefix; `none` models `NaN`. -/
def parseIntJS (s : String) : Option Int :=
  match s.data.dropWhile (fun c => c.isWhitespace) with
  | '-' :: rest => (parseDigits rest).map (fun n => -(n : Int))
  | '+' :: rest => (parseDigits rest).map (fun n => (n : Int))
  | rest => (parseDigits rest).map (fun n => (n : Int))

/-- The settled outcomes of the `submitStar` promise: the expiry rejection
(src/blockchain.js line 141), a rejection with the exception thrown by
`bitcoinMessage.verify` (line 152), and the invalid-signature rejection
(line 157). -/
inductive SubmitError where
  | expired
  | verifyThrew (msg : String)
  | invalidSignature
deriving DecidableEq

/-- The literal `30000000000000000000000000000` that src/blockchain.js line
140 compares the elapsed seconds against (the comment there says 5 minutes =
300). -/
def freshnessLimit : Int :=
  30000000000000000000000000000

/-- `submitStar(address, message, signature, star)` (src/blockchain.js lines
129-168).  `curTime` is the current Unix time in seconds (line 137), `now`
the clock read inside `_addBlock`, and `verify` the external
`bitcoinMessage.verify`, which may throw (`Except.error`).

The translation keeps the control flow of the source, where no `reject` is
followed by a `return`: execution falls through to `_addBlock` and `resolve`
on every path, so the returned state always includes the `_addBlock`
mutation, while the promise result is the *first* settlement (a promise
ignores later `reject`/`resolve` calls). -/
def Blockchain.submitStar (self : Blockchain) (address message signature : String)
    (star : Star) (curTime : Int) (now : Nat)
    (verify : String → String → String → Except String Bool) :
    Except SubmitError Block × Blockchain :=
  let msgTime : Option Int := ((jsSplit ':' message)[1]?).bind parseIntJS
  let expired : Bool :=
    match msgTime with
    | some t => decide (curTime - t > freshnessLimit)
    | none => false
  let vres := verify message address signature
  let newBlock := mkBlock (BodyData.claimData address star)
  let final := (Blockchain.addBlock self now newBlock).2
  let sealed := sealBlock self now newBlock
  let result : Except SubmitError Block :=
    if expired then Except.error SubmitError.expired
    else
      match vres with
      | Except.error e => Except.error (SubmitError.verifyThrew e)
      | Except.ok v =>
        if v then Except.ok sealed else Except.error SubmitError.invalidSignature
  (result, final)

/-- The chain states of a process run: the freshly constructed object before
its Genesis commit, the state right after initialization, and everything
obtainable from a state with a committed Genesis by handing `_addBlock` a
constructor-fresh block, as `initializeChain` and `submitStar` do (a refused
append leaves the state unchanged, so failed appends are covered too). -/
inductive Reachable : Blockchain → Prop where
  | preInit : Reachable { chain := [], height := -1 }
  | postInit (now : Nat) : Reachable (newBlockchain now)
  | append (self : Blockchain) (now : Nat) (d : BodyData) :
      Reachable self → self.chain ≠ [] →
      Reachable ((Blockchain.addBlock self now (mkBlock d)).2)

/-- Structural invariant of reachable chains: the height counter tracks the
array length, heights equal positions, every committed block is sealed
(stored hash = recomputed digest), consecutive blocks are hash-linked, and
the first block carries no previous hash. -/
def ChainInv (self : Blockchain) : Prop :=
  self.height = (self.chain.length : Int) - 1 ∧
  (∀ (i : Nat) (b : Block), self.chain[i]? = some b → b.height = (i : Int)) ∧
  (∀ b ∈ self.chain, b.hash = some (digestOf b)) ∧
  (∀ (i : Nat) (b c : Block), self.chain[i]? = some b → self.chain[i + 1]? = some c →
    c.previousBlockHash = b.hash) ∧
  (∀ b : Block, self.chain[0]? = some b → b.previousBlockHash = none)

/-! Helper lemmas about the chain walk of `validateChain`. -/

/-- Link condition that `walk prev l` checks on the first block of `l`. -/
def headLink (prev : Option Block) (l : List Block) : Prop :=
  match prev with
  | none => True
  | some p =>
    match l with
    | [] => True
    | b :: _ => b.previousBlockHash = p.hash

theorem headLink_none (l : List Block) : headLink none l := by
  trivial

theorem selfErr_nil_iff (b : Block) : selfErr b = [] ↔ Block.validate b = true := by
  cases h : Block.validate b <;> simp [selfErr, h]

theorem linkErr_nil_iff (prev : Option Block) (b : Block) (t : List Block) :
    linkErr prev b = [] ↔ headLink prev (b :: t) := by
  cases prev with
  | none => simp [linkErr, headLink]
  | some p =>
    by_cases hp : b.previousBlockHash = p.hash <;> simp [linkErr, headLink, hp]

theorem walk_cons (prev : Option Block) (b : Block) (t : List Block) :
    walk prev (b :: t) = selfErr b ++ linkErr prev b ++ walk (some b) t :=
  rfl

theorem links_cons_iff (b : Block) (t : List Block) :
    (∀ (i : Nat) (x c : Block), (b :: t)[i]? = some x → (b :: t)[i + 1]? = some c →
      c.previousBlockHash = x.hash) ↔
    (headLink (some b) t ∧ (∀ (i : Nat) (x c : Block), t[i]? = some x → t[i + 1]? = some c →
      c.previousBlockHash = x.hash)) := by
  constructor
  · intro h
    constructor
    · cases t with
      | nil => trivial
      | cons c t2 => exact h 0 b c rfl (by simp)
    · intro i x c h1 h2
      exact h (i + 1) x c (by simpa using h1) (by simpa using h2)
  · rintro ⟨hh, ht⟩ i x c h1 h2
    cases i with
    | zero =>
      rw [List.getElem?_cons_zero] at h1
      injection h1 with h1
      subst h1
      rw [List.getElem?_cons_succ] at h2
      cases t with
      | nil => simp at h2
      | cons c0 t2 =>
        rw [List.getElem?_cons_zero] at h2
        injection h2 with h2
        subst h2
        exact hh
    | succ j =>
      rw [List.getElem?_cons_succ] at h1
      rw [List.getElem?_cons_succ] at h2
      exact ht j x c h1 h2

theorem walk_eq_nil_iff (l : List Block) : ∀ (prev : Option Block),
    walk prev l = [] ↔
    ((∀ b ∈ l, Block.validate b = true) ∧ headLink prev l ∧
     (∀ (i : Nat) (b c : Block), l[i]? = some b → l[i + 1]? = some c →
       c.previousBlockHash = b.hash)) := by
  induction l with
  | nil =>
    intro prev
    constructor
    · intro _
      refine ⟨by simp, ?_, by intro i b c h1 _; simp at h1⟩
      cases prev <;> trivial
    · intro _
      rfl
  | cons b t ih =>
    intro prev
    rw [walk_cons, List.append_eq_nil, List.append_eq_nil]
    rw [selfErr_nil_iff, linkErr_nil_iff prev b t, ih (some b)]
    rw [List.forall_mem_cons, links_cons_iff]
    tauto

/-- `walk` looks at the carried predecessor only through its `hash` field. -/
theorem walk_hash_congr (l : List Block) (a b : Block) (h : a.hash = b.hash) :
    walk (some a) l = walk (some b) l := by
  cases l with
  | nil => rfl
  | cons c t =>
    rw [walk_cons, walk_cons]
    rw [show linkErr (some a) c = linkErr (some b) c from by simp [linkErr, h]]

theorem linkErr_congr (prev : Option Block) (a b : Block)
    (h : a.previousBlockHash = b.previousBlockHash) : linkErr prev a = linkErr prev b := by
  cases prev <;> simp [linkErr, h]

theorem digestOf_set_hash (b : Block) (nh : Option Digest) :
    digestOf { b with hash := nh } = digestOf b :=
  rfl

theorem digestOf_set_body (b : Block) (nb : EncodedBody) (h : nb ≠ b.body) :
    digestOf { b with body := nb } ≠ digestOf b := by
  cases hp : b.previousBlockHash <;> simp [digestOf, hp] <;> exact h

/-- Corrupting one block's body in an error-free chain, without recomputing its
digest, makes exactly that block's self-check fail and nothing else. -/
theorem walk_set_body (l : List Block) : ∀ (prev : Option Block) (i : Nat) (b0 : Block)
    (nb : EncodedBody), walk prev l = [] → l[i]? = some b0 → nb ≠ b0.body →
    walk prev (l.set i { b0 with body := nb }) = [ChainError.blockNotValid] := by
  induction l with
  | nil =>
    intro prev i b0 nb _ h
    simp at h
  | cons b t ih =>
    intro prev i b0 nb hnil hidx hne
    rw [walk_cons, List.append_eq_nil, List.append_eq_nil] at hnil
    obtain ⟨⟨h1, h2⟩, h3⟩ := hnil
    cases i with
    | zero =>
      rw [List.getElem?_cons_zero] at hidx
      injection hidx with hidx
      subst hidx
      rw [List.set_cons_zero, walk_cons]
      have hv : b.hash = some (digestOf b) :=
        of_decide_eq_true ((selfErr_nil_iff b).mp h1)
      have hval : Block.validate { b with body := nb } = false := by
        apply decide_eq_false
        intro hcontra
        have : some (digestOf b) = some (digestOf { b with body := nb }) := by
          rw [← hv]; exact hcontra
        exact digestOf_set_body b nb hne (Option.some_injective _ this.symm)
      rw [show selfErr { b with body := nb } = [ChainError.blockNotValid] from by
        simp [selfErr, hval]]
      rw [linkErr_congr prev { b with body := nb } b rfl, h2]
      rw [walk_hash_congr t { b with body := nb } b rfl, h3]
      rfl
    | succ j =>
      rw [List.getElem?_cons_succ] at hidx
      rw [List.set_cons_succ, walk_cons, h1, h2]
      rw [ih (some b) j b0 nb h3 hidx hne]
      rfl

/-- Altering the stored hash of a block that has a successor, in an error-free
chain, produces exactly the block's own self-check error followed by the
successor's linkage error. -/
theorem walk_set_hash (l : List Block) : ∀ (prev : Option Block) (i : Nat) (b0 b1 : Block)
    (nh : Option Digest), walk prev l = [] → l[i]? = some b0 → l[i + 1]? = some b1 →
    nh ≠ b0.hash →
    walk prev (l.set i { b0 with hash := nh }) =
      [ChainError.blockNotValid, ChainError.incompatiblePreviousHash] := by
  induction l with
  | nil =>
    intro prev i b0 b1 nh _ h
    simp at h
  | cons b t ih =>
    intro prev i b0 b1 nh hnil hidx hsucc hne
    rw [walk_cons, List.append_eq_nil, List.append_eq_nil] at hnil
    obtain ⟨⟨h1, h2⟩, h3⟩ := hnil
    cases i with
    | zero =>
      rw [List.getElem?_cons_zero] at hidx
      injection hidx with hidx
      subst hidx
      rw [List.getElem?_cons_succ] at hsucc
      cases t with
      | nil => simp at hsucc
      | cons c t2 =>
        rw [List.getElem?_cons_zero] at hsucc
        injection hsucc with hsucc
        subst hsucc
        rw [List.set_cons_zero, walk_cons]
        have hv : b.hash = some (digestOf b) :=
          of_decide_eq_true ((selfErr_nil_iff b).mp h1)
        have hval : Block.validate { b with hash := nh } = false := by
          apply decide_eq_false
          intro hcontra
          rw [digestOf_set_hash] at hcontra
          exact hne (by rw [hv]; exact hcontra)
        rw [walk_cons, List.append_eq_nil, List.append_eq_nil] at h3
        obtain ⟨⟨h4, h5⟩, h6⟩ := h3
        have hlink : c.previousBlockHash = b.hash := by
          by_contra hcontra
          simp [linkErr, hcontra] at h5
        rw [show selfErr { b with hash := nh } = [ChainError.blockNotValid] from by
          simp [selfErr, hval]]
        rw [linkErr_congr prev { b with hash := nh } b rfl, h2]
        rw [walk_cons, h4]
        rw [show linkErr (some { b with hash := nh }) c =
            [ChainError.incompatiblePreviousHash] from by
          simp [linkErr]
          rw [hlink]
          exact fun hcontra => hne hcontra.symm]
        rw [h6]
        rfl
    | succ j =>
      rw [List.getElem?_cons_succ] at hidx
      rw [List.getElem?_cons_succ] at hsucc
      rw [List.set_cons_succ, walk_cons, h1, h2]
      rw [ih (some b) j b0 b1 nh h3 hidx hsucc hne]
      rfl

/-! Helper lemmas about `sealBlock` and `addBlock`. -/

theorem sealBlock_height (self : Blockchain) (now : Nat) (blk : Block) :
    (sealBlock self now blk).height = self.height + 1 := by
  unfold sealBlock
  cases h : self.chain.getLast? <;> simp [h]

theorem sealBlock_time (self : Blockchain) (now : Nat) (blk : Block) :
    (sealBlock self now blk).time = now := by
  unfold sealBlock
  cases h : self.chain.getLast? <;> simp [h]

theorem sealBlock_body (self : Blockchain) (now : Nat) (blk : Block) :
    (sealBlock self now blk).body = blk.body := by
  unfold sealBlock
  cases h : self.chain.getLast? <;> simp [h]

theorem sealBlock_hashval (self : Blockchain) (now : Nat) (blk : Block) :
    (sealBlock self now blk).hash = some (digestOf (sealBlock self now blk)) := by
  unfold sealBlock
  cases h : self.chain.getLast? <;> rfl

theorem sealBlock_prev_nil (self : Blockchain) (now : Nat) (blk : Block)
    (h : self.chain = []) :
    (sealBlock self now blk).previousBlockHash = blk.previousBlockHash := by
  unfold sealBlock
  rw [show self.chain.getLast? = none from by rw [h]; rfl]

theorem sealBlock_prev_tail (self : Blockchain) (now : Nat) (blk : Block) (tail : Block)
    (h : self.chain.getLast? = some tail) :
    (sealBlock self now blk).previousBlockHash = tail.hash := by
  unfold sealBlock
  rw [h]

theorem addBlock_ok (self : Blockchain) (now : Nat) (blk : Block)
    (h : Blockchain.validateChain self = []) :
    Blockchain.addBlock self now blk =
      (Except.ok (sealBlock self now blk),
       { chain := self.chain ++ [sealBlock self now blk], height := self.height + 1 }) := by
  unfold Blockchain.addBlock
  rw [h]
  simp only []
  rw [if_neg (by simp)]
  rw [sealBlock_height]

theorem addBlock_fail (self : Blockchain) (now : Nat) (blk : Block)
    (h : Blockchain.validateChain self ≠ []) :
    Blockchain.addBlock self now blk = (Except.error AddBlockError.chainCorrupt, self) := by
  unfold Blockchain.addBlock
  rw [if_pos (List.length_pos.mpr h)]

theorem addBlock_resolves (self : Blockchain) (now : Nat) (blk b : Block) (s2 : Blockchain)
    (h : Blockchain.addBlock self now blk = (Except.ok b, s2)) :
    Blockchain.validateChain self = [] ∧ b = sealBlock self now blk ∧
      s2 = { chain := self.chain ++ [sealBlock self now blk], height := self.height + 1 } := by
  by_cases hv : Blockchain.validateChain self = []
  · rw [addBlock_ok self now blk hv] at h
    injection h with h1 h2
    injection h1 with h1
    exact ⟨hv, h1.symm, h2.symm⟩
  · rw [addBlock_fail self now blk hv] at h
    injection h with h1 _
    exact absurd h1 (by simp)

/-! The reachable-state invariant. -/

/-- A chain whose recorded invariants hold validates cleanly. -/
theorem chainInv_validateChain (self : Blockchain) (hinv : ChainInv self) :
    Blockchain.validateChain self = [] := by
  obtain ⟨_, _, hsealed, hlinks, _⟩ := hinv
  unfold Blockchain.validateChain
  rw [walk_eq_nil_iff]
  refine ⟨?_, trivial, hlinks⟩
  intro b hb
  exact decide_eq_true (hsealed b hb)

theorem chainInv_preInit : ChainInv { chain := [], height := -1 } :=
  ⟨by simp, by intro i b h; simp at h, by simp,
   by intro i b c h1 _; simp at h1, by intro b h; simp at h⟩

/-- `_addBlock` preserves the chain invariant, provided the candidate block
carries no previous hash of its own when the chain is still empty (true of
every constructor-fresh block). -/
theorem chainInv_append (self : Blockchain) (now : Nat) (blk : Block)
    (hinv : ChainInv self)
    (hprev : self.chain = [] → blk.previousBlockHash = none) :
    ChainInv ((Blockchain.addBlock self now blk).2) := by
  by_cases hv : Blockchain.validateChain self = []
  · rw [addBlock_ok self now blk hv]
    obtain ⟨hc, hh, hs, hl, h0⟩ := hinv
    have hbH : (sealBlock self now blk).height = (self.chain.length : Int) := by
      rw [sealBlock_height, hc]
      ring
    refine ⟨?_, ?_, ?_, ?_, ?_⟩
    · show self.height + 1 = ((self.chain ++ [sealBlock self now blk]).length : Int) - 1
      rw [hc, List.length_append, List.length_singleton]
      push_cast
      ring
    · intro i b2 hi2
      rw [List.getElem?_append] at hi2
      split_ifs at hi2 with hlt
      · exact hh i b2 hi2
      · cases hq : i - self.chain.length with
        | zero =>
          rw [hq, List.getElem?_cons_zero] at hi2
          injection hi2 with hi2
          subst hi2
          rw [hbH]
          congr 1
          omega
        | succ k =>
          rw [hq, List.getElem?_cons_succ] at hi2
          simp at hi2
    · intro b2 hmem
      rw [List.mem_append] at hmem
      cases hmem with
      | inl hmem => exact hs b2 hmem
      | inr hmem =>
        rw [List.mem_singleton] at hmem
        subst hmem
        exact sealBlock_hashval self now blk
    · intro i b2 c2 h1 h2
      rw [List.getElem?_append] at h1
      rw [List.getElem?_append] at h2
      split_ifs at h2 with hlt2
      · rw [if_pos (by omega)] at h1
        exact hl i b2 c2 h1 h2
      · cases hq : i + 1 - self.chain.length with
        | zero =>
          have hi : i + 1 = self.chain.length := by omega
          rw [hq, List.getElem?_cons_zero] at h2
          injection h2 with h2
          subst h2
          rw [if_pos (by omega)] at h1
          have htail : self.chain.getLast? = some b2 := by
            rw [List.getLast?_eq_getElem?]
            rw [show self.chain.length - 1 = i from by omega]
            exact h1
          exact sealBlock_prev_tail self now blk b2 htail
        | succ k =>
          rw [hq, List.getElem?_cons_succ] at h2
          simp at h2
    · intro b2 h2
      rw [List.getElem?_append] at h2
      split_ifs at h2 with hlt
      · exact h0 b2 h2
      · have hnil : self.chain = [] := by
          cases hchain : self.chain with
          | nil => rfl
          | cons x xs => rw [hchain] at hlt; simp at hlt
        rw [hnil] at h2
        simp at h2
        subst h2
        rw [sealBlock_prev_nil self now blk hnil]
        exact hprev hnil
  · rw [addBlock_fail self now blk hv]
    exact hinv

theorem reachable_chainInv (self : Blockchain) (h : Reachable self) : ChainInv self := by
  induction h with
  | preInit => exact chainInv_preInit
  | postInit now =>
    show ChainInv ((Blockchain.addBlock { chain := [], height := -1 } now
      (mkBlock genesisBody)).2)
    exact chainInv_append _ now _ chainInv_preInit (fun _ => rfl)
  | append self now d hre hne ih =>
    exact chainInv_append self now (mkBlock d) ih (fun _ => rfl)

/-! Lookup by height on chains whose heights equal their positions. -/

theorem filter_height_head (l : List Block) : ∀ (off : Nat),
    (∀ (j : Nat) (b : Block), l[j]? = some b → b.height = ((off + j : Nat) : Int)) →
    ∀ (k : Nat) (b : Block), l[k]? = some b →
    (l.filter (fun p => decide (p.height = ((off + k : Nat) : Int)))).head? = some b := by
  induction l with
  | nil =>
    intro off _ k b h
    simp at h
  | cons b0 t ih =>
    intro off hh k b hk
    have hb0 : b0.height = (off : Int) := by
      have := hh 0 b0 (by simp)
      simpa using this
    cases k with
    | zero =>
      rw [List.getElem?_cons_zero] at hk
      injection hk with hk
      subst hk
      rw [List.filter_cons, if_pos]
      · rfl
      · apply decide_eq_true
        rw [hb0]
        norm_num
    | succ j =>
      rw [List.getElem?_cons_succ] at hk
      rw [List.filter_cons, if_neg]
      · have hh2 : ∀ (j2 : Nat) (b2 : Block), t[j2]? = some b2 →
            b2.height = ((off + 1 + j2 : Nat) : Int) := by
          intro j2 b2 h2
          rw [hh (j2 + 1) b2 (by simpa using h2)]
          congr 1
          omega
        rw [show (off + (j + 1) : Nat) = (off + 1 + j : Nat) from by omega]
        exact ih (off + 1) hh2 j b hk
      · rw [decide_eq_true_eq, hb0]
        intro hcontra
        have : (off : Int) = ((off + (j + 1) : Nat) : Int) := hcontra
        push_cast at this
        omega

/-! Helper lemmas about `getStarsByWalletAddress`. -/

theorem starsGo_cons (address : String) (b : Block) (t : List Block) (acc : List Star) :
    starsGo address (b :: t) acc = starsGo address t
      (if b.height > 0 then
        match Block.getBData b with
        | BodyData.claimData owner s => if owner = address then acc ++ [s] else acc
        | BodyData.genesisData _ => acc
      else acc) :=
  rfl

theorem starsGo_acc (address : String) (l : List Block) : ∀ (acc : List Star),
    starsGo address l acc = acc ++ starsGo address l [] := by
  induction l with
  | nil =>
    intro acc
    simp [starsGo]
  | cons b t ih =>
    intro acc
    rw [starsGo_cons, starsGo_cons]
    have hupd : (if b.height > 0 then
        match Block.getBData b with
        | BodyData.claimData owner s => if owner = address then acc ++ [s] else acc
        | BodyData.genesisData _ => acc
      else acc) = acc ++ (if b.height > 0 then
        match Block.getBData b with
        | BodyData.claimData owner s => if owner = address then [] ++ [s] else []
        | BodyData.genesisData _ => []
      else []) := by
      by_cases hh : b.height > 0
      · rw [if_pos hh, if_pos hh]
        cases hbd : Block.getBData b with
        | genesisData d => simp
        | claimData o s =>
          by_cases ho : o = address <;> simp [ho]
      · rw [if_neg hh, if_neg hh]
        simp
    rw [hupd, ih, ih (if b.height > 0 then
        match Block.getBData b with
        | BodyData.claimData owner s => if owner = address then [] ++ [s] else []
        | BodyData.genesisData _ => []
      else [])]
    rw [List.append_assoc]

theorem starsGo_filterMap (address : String) (l : List Block) :
    starsGo address l [] = l.filterMap (fun b =>
      if b.height > 0 then
        match b.body.decoded with
        | BodyData.claimData owner s => if owner = address then some s else none
        | BodyData.genesisData _ => none
      else none) := by
  induction l with
  | nil => rfl
  | cons b t ih =>
    rw [starsGo_cons, starsGo_acc, List.filterMap_cons, ih]
    by_cases hh : b.height > 0
    · rw [if_pos hh, if_pos hh]
      cases hbd : Block.getBData b with
      | genesisData d =>
        rw [show b.body.decoded = BodyData.genesisData d from hbd]
        simp
      | claimData o s =>
        rw [show b.body.decoded = BodyData.claimData o s from hbd]
        by_cases ho : o = address <;> simp [ho]
    · rw [if_neg hh, if_neg hh]
      simp

/-! Helper lemmas about `splitChars` and decimal digit strings. -/

theorem splitChars_ne_nil (sep : Char) (l : List Char) : splitChars sep l ≠ [] := by
  cases l with
  | nil => simp [splitChars]
  | cons c cs =>
    unfold splitChars
    cases h : splitChars sep cs with
    | nil => simp
    | cons g gs =>
      by_cases hc : c = sep <;> simp [hc]

theorem splitChars_not_mem (sep : Char) (l : List Char) (h : sep ∉ l) :
    splitChars sep l = [l] := by
  induction l with
  | nil => rfl
  | cons c cs ih =>
    have hc : c ≠ sep := fun he => h (he ▸ List.mem_cons_self c cs)
    have hcs : sep ∉ cs := fun hm => h (List.mem_cons_of_mem c hm)
    unfold splitChars
    rw [ih hcs]
    simp [hc]

theorem splitChars_cons (sep c : Char) (cs : List Char) :
    splitChars sep (c :: cs) = match splitChars sep cs with
      | [] => [[]]
      | g :: gs => if c = sep then [] :: g :: gs else (c :: g) :: gs := by
  rfl

theorem splitChars_append_sep (sep : Char) (a : List Char) : ∀ (rest : List Char),
    sep ∉ a → splitChars sep (a ++ sep :: rest) = a :: splitChars sep rest := by
  induction a with
  | nil =>
    intro rest _
    rw [List.nil_append, splitChars_cons]
    cases hs : splitChars sep rest with
    | nil => exact absurd hs (splitChars_ne_nil sep rest)
    | cons g gs => simp
  | cons c a2 ih =>
    intro rest h
    have hc : c ≠ sep := fun he => h (he ▸ List.mem_cons_self c a2)
    have ha2 : sep ∉ a2 := fun hm => h (List.mem_cons_of_mem c hm)
    rw [List.cons_append, splitChars_cons, ih rest ha2]
    simp [hc]

theorem digitChar_ne_colon : ∀ m, m < 10 → Nat.digitChar m ≠ ':' := by
  decide

theorem mem_toDigitsCore_ten : ∀ (fuel n : Nat) (ds : List Char) (c : Char),
    c ∈ Nat.toDigitsCore 10 fuel n ds → (∃ m, m < 10 ∧ c = Nat.digitChar m) ∨ c ∈ ds := by
  intro fuel
  induction fuel with
  | zero =>
    intro n ds c h
    simp only [Nat.toDigitsCore] at h
    exact Or.inr h
  | succ f ih =>
    intro n ds c h
    simp only [Nat.toDigitsCore] at h
    by_cases hq : n / 10 = 0
    · rw [if_pos hq] at h
      rcases List.mem_cons.mp h with he | hd
      · exact Or.inl ⟨n % 10, Nat.mod_lt n (by norm_num), he⟩
      · exact Or.inr hd
    · rw [if_neg hq] at h
      rcases ih (n / 10) _ c h with hl | hd
      · exact Or.inl hl
      · rcases List.mem_cons.mp hd with he | hd2
        · exact Or.inl ⟨n % 10, Nat.mod_lt n (by norm_num), he⟩
        · exact Or.inr hd2

theorem colon_not_mem_repr (n : Nat) : ':' ∉ (Nat.repr n).data := by
  intro h
  have h2 : ':' ∈ Nat.toDigitsCore 10 (n + 1) n [] := h
  rcases mem_toDigitsCore_ten (n + 1) n [] ':' h2 with ⟨m, hm, he⟩ | hd
  · exact digitChar_ne_colon m hm he.symm
  · simp at hd

theorem jsSplit_message (address : String) (t : Nat) (h : ':' ∉ address.data) :
    jsSplit ':' (address ++ ":" ++ Nat.repr t ++ ":starRegistry")
      = [address, Nat.repr t, "starRegistry"] := by
  unfold jsSplit
  have hdata : (address ++ ":" ++ Nat.repr t ++ ":starRegistry").data
      = address.data ++ ':' :: ((Nat.repr t).data ++ ':' :: "starRegistry".data) := by
    rw [String.data_append, String.data_append, String.data_append]
    simp
  rw [hdata]
  rw [splitChars_append_sep ':' address.data _ h]
  rw [splitChars_append_sep ':' (Nat.repr t).data _ (colon_not_mem_repr t)]
  rw [splitChars_not_mem ':' "starRegistry".data (by decide)]
  rfl

/-! Concrete fixtures used by the witnesses: a freshly initialized chain, one
committed claim block, and tampered variants. -/

def star1 : Star :=
  ⟨"16h 29m 1.0s", "68d 52m 56.9", "Testing the story 4"⟩

def bcG : Blockchain :=
  newBlockchain 1000

def blk1 : Block :=
  mkBlock (BodyData.claimData "1xyz" star1)

def sealed1 : Block :=
  sealBlock bcG 1001 blk1

def bc1 : Blockchain :=
  (Blockchain.addBlock bcG 1001 blk1).2

def gBlock : Block :=
  sealBlock { chain := [], height := -1 } 1000 (mkBlock genesisBody)

def tamperedBody : EncodedBody :=
  ⟨BodyData.claimData "1xyz" ⟨"0h", "0d", "tampered"⟩⟩

def bcCorrupt : Blockchain :=
  { bc1 with chain := bc1.chain.set 1 { sealed1 with body := tamperedBody } }

def oracleTrue : String → String → String → Except String Bool :=
  fun _ _ _ => Except.ok true

def oracleFalse : String → String → String → Except String Bool :=
  fun _ _ _ => Except.ok false

def oracleThrow : String → String → String → Except String Bool :=
  fun _ _ _ => Except.error "Invalid signature"

theorem reachable_bcG : Reachable bcG :=
  Reachable.postInit 1000

theorem reachable_bc1 : Reachable bc1 :=
  Reachable.append bcG 1001 (BodyData.claimData "1xyz" star1) reachable_bcG (by decide)

/-! The claims. -/

/-- C1: the claim states that a `submitStar` call that fails (malformed
message, expired challenge, or invalid signature) leaves the chain's block
sequence and height unchanged.  The code violates this: each rejection in
`submitStar` is not followed by a `return`, so execution falls through to
`_addBlock`, which appends the claim block even though the promise has already
rejected.  This theorem evaluates the model at the three failing inputs: an
invalid signature, a message on which the verifier throws, and a message that
triggers the expiry rejection — each call rejects, yet the chain grows by one
block. -/
theorem submitStar_failure_still_appends :
    ((Blockchain.submitStar bcG "1xyz" "1xyz:1699999999:starRegistry" "sig" star1
        1700000000 1700000000 oracleFalse).1 = Except.error SubmitError.invalidSignature ∧
      (Blockchain.submitStar bcG "1xyz" "1xyz:1699999999:starRegistry" "sig" star1
        1700000000 1700000000 oracleFalse).2.chain.length = bcG.chain.length + 1) ∧
    ((Blockchain.submitStar bcG "1xyz" "nonsense" "sig" star1
        1700000000 1700000000 oracleThrow).1
          = Except.error (SubmitError.verifyThrew "Invalid signature") ∧
      (Blockchain.submitStar bcG "1xyz" "nonsense" "sig" star1
        1700000000 1700000000 oracleThrow).2.chain.length = bcG.chain.length + 1) ∧
    ((Blockchain.submitStar bcG "1xyz"
        "1xyz:-100000000000000000000000000000000000:starRegistry" "sig" star1
        1700000000 1700000000 oracleTrue).1 = Except.error SubmitError.expired ∧
      (Blockchain.submitStar bcG "1xyz"
        "1xyz:-100000000000000000000000000000000000:starRegistry" "sig" star1
        1700000000 1700000000 oracleTrue).2.chain.length = bcG.chain.length + 1) :=
  ⟨⟨rfl, rfl⟩, ⟨rfl, rfl⟩, ⟨rfl, rfl⟩⟩

/-- C2: the claim states that `submitStar` rejects with the expiry error
exactly when the elapsed time exceeds 300 seconds, so a challenge issued 301
seconds ago is rejected.  The code compares the elapsed seconds against the
literal `30000000000000000000000000000` instead of 300, so a 301-second-old
challenge with a valid signature is accepted and committed; the expiry branch
only ever fires when the embedded timestamp is more than that astronomical
constant in the past. -/
theorem submitStar_freshness_window_ignored :
    ((Blockchain.submitStar bcG "1xyz" "1xyz:1700000000:starRegistry" "sig" star1
        1700000301 1700000301 oracleTrue).1
      = Except.ok (sealBlock bcG 1700000301 (mkBlock (BodyData.claimData "1xyz" star1))) ∧
      (Blockchain.submitStar bcG "1xyz" "1xyz:1700000000:starRegistry" "sig" star1
        1700000301 1700000301 oracleTrue).2.chain.length = bcG.chain.length + 1) ∧
    (Blockchain.submitStar bcG "1xyz"
        "1xyz:-100000000000000000000000000000000000:starRegistry" "sig" star1
        1700000301 1700000301 oracleTrue).1 = Except.error SubmitError.expired :=
  ⟨⟨rfl, rfl⟩, rfl⟩

/-- C3: in every reachable chain state, every block with height > 0 has
`previousBlockHash` equal to the `hash` of the block at height − 1 (looked up
through `getBlockByHeight`), and the Genesis block (height 0) carries no
previous hash. -/
theorem chain_linkage_invariant (self : Blockchain) (hre : Reachable self) :
    ∀ b ∈ self.chain,
      (0 < b.height → ∃ prev, Blockchain.getBlockByHeight self (b.height - 1) = some prev ∧
        b.previousBlockHash = prev.hash) ∧
      (b.height = 0 → b.previousBlockHash = none) := by
  intro b hmem
  obtain ⟨hc, hh, hs, hl, h0⟩ := reachable_chainInv self hre
  obtain ⟨i, hi⟩ := List.mem_iff_getElem?.mp hmem
  have hbh : b.height = (i : Int) := hh i b hi
  obtain ⟨hilen, _⟩ := List.getElem?_eq_some.mp hi
  constructor
  · intro hpos
    have hipos : 0 < i := by
      rw [hbh] at hpos
      exact_mod_cast hpos
    have hilt : i - 1 < self.chain.length := by omega
    have hprev : self.chain[i - 1]? = some self.chain[i - 1] :=
      List.getElem?_eq_getElem hilt
    refine ⟨self.chain[i - 1], ?_, ?_⟩
    · have hidx : b.height - 1 = ((0 + (i - 1) : Nat) : Int) := by
        rw [hbh]
        omega
      rw [hidx]
      exact filter_height_head self.chain 0
        (by intro j bj hj; simpa using hh j bj hj) (i - 1) self.chain[i - 1] hprev
    · have hsucc : self.chain[(i - 1) + 1]? = some b := by
        rw [show (i - 1) + 1 = i from by omega]
        exact hi
      exact hl (i - 1) self.chain[i - 1] b hprev hsucc
  · intro h0b
    have hiz : i = 0 := by
      rw [hbh] at h0b
      exact_mod_cast h0b
    exact h0 b (hiz ▸ hi)

/-- Witness for C3: in the two-block fixture chain, the committed claim block
links to the hash of the block at height 0. -/
theorem chain_linkage_invariant_witness :
    ∃ prev, Blockchain.getBlockByHeight bc1 (sealed1.height - 1) = some prev ∧
      sealed1.previousBlockHash = prev.hash :=
  (chain_linkage_invariant bc1 reachable_bc1 sealed1 (by decide)).1 (by decide)

/-- C4: every `_addBlock` call that resolves appends exactly its sealed block
at the tail, grows the chain by exactly one block, and advances the height
counter by exactly 1, the new block's height being the previous height plus
1; no other block is added, removed, or modified. -/
theorem addBlock_appends_exactly_one (self : Blockchain) (now : Nat) (blk b : Block)
    (s2 : Blockchain) (h : Blockchain.addBlock self now blk = (Except.ok b, s2)) :
    s2.chain = self.chain ++ [b] ∧ s2.chain.length = self.chain.length + 1 ∧
    s2.height = self.height + 1 ∧ b.height = self.height + 1 := by
  obtain ⟨hv, hb, hs⟩ := addBlock_resolves self now blk b s2 h
  subst hb
  subst hs
  exact ⟨rfl, by simp, rfl, sealBlock_height self now blk⟩

/-- Witness for C4: appending the fixture claim block to the freshly
initialized chain. -/
theorem addBlock_appends_exactly_one_witness :
    bc1.chain = bcG.chain ++ [sealed1] ∧ bc1.chain.length = bcG.chain.length + 1 ∧
    bc1.height = bcG.height + 1 ∧ sealed1.height = bcG.height + 1 :=
  addBlock_appends_exactly_one bcG 1001 blk1 sealed1 bc1 rfl

/-- C5: when validating the existing chain reports any error, `_addBlock`
fails with the chain-corrupt error and returns the committed chain exactly as
it was: the candidate block is discarded, nothing is pushed, and the height
counter is unchanged. -/
theorem addBlock_corrupt_refused (self : Blockchain) (now : Nat) (blk : Block)
    (h : Blockchain.validateChain self ≠ []) :
    Blockchain.addBlock self now blk = (Except.error AddBlockError.chainCorrupt, self) :=
  addBlock_fail self now blk h

/-- Witness for C5: an append against the tampered fixture chain is refused
and the state is returned untouched. -/
theorem addBlock_corrupt_refused_witness :
    Blockchain.addBlock bcCorrupt 2000 (mkBlock (BodyData.claimData "1abc" star1))
      = (Except.error AddBlockError.chainCorrupt, bcCorrupt) :=
  addBlock_corrupt_refused bcCorrupt 2000 (mkBlock (BodyData.claimData "1abc" star1))
    (by decide)

/-- C6: `validateChain` returns the empty list exactly when every block passes
its self-check and every non-first block links to its predecessor's hash; and
after corrupting exactly one committed block's body (without recomputing its
digest) in an error-free chain, it reports exactly one integrity error, caused
by that block's failed self-check, and no others. -/
theorem validateChain_sound_and_complete :
    (∀ self : Blockchain, Blockchain.validateChain self = [] ↔
      ((∀ b ∈ self.chain, Block.validate b = true) ∧
       (∀ (i : Nat) (b c : Block), self.chain[i]? = some b → self.chain[i + 1]? = some c →
         c.previousBlockHash = b.hash))) ∧
    (∀ (self : Blockchain) (i : Nat) (b0 : Block) (nb : EncodedBody),
      Blockchain.validateChain self = [] → self.chain[i]? = some b0 → nb ≠ b0.body →
      Blockchain.validateChain { self with chain := self.chain.set i { b0 with body := nb } }
        = [ChainError.blockNotValid] ∧
      Block.validate { b0 with body := nb } = false) := by
  constructor
  · intro self
    unfold Blockchain.validateChain
    rw [walk_eq_nil_iff]
    constructor
    · rintro ⟨h1, _, h3⟩
      exact ⟨h1, h3⟩
    · rintro ⟨h1, h3⟩
      exact ⟨h1, headLink_none _, h3⟩
  · intro self i b0 nb hnil hidx hne
    refine ⟨walk_set_body self.chain none i b0 nb hnil hidx hne, ?_⟩
    have hnil2 : walk none self.chain = [] := hnil
    rw [walk_eq_nil_iff] at hnil2
    have hv : Block.validate b0 = true :=
      hnil2.1 b0 (List.mem_iff_getElem?.mpr ⟨i, hidx⟩)
    apply decide_eq_false
    intro hcontra
    have hvv : b0.hash = some (digestOf b0) := of_decide_eq_true hv
    have heq : some (digestOf b0) = some (digestOf { b0 with body := nb }) := by
      rw [← hvv]
      exact hcontra
    exact digestOf_set_body b0 nb hne (Option.some_injective _ heq.symm)

/-- Witness for C6: corrupting the committed claim block's body in the
two-block fixture chain yields exactly one self-check error. -/
theorem validateChain_sound_and_complete_witness :
    Blockchain.validateChain bcCorrupt = [ChainError.blockNotValid] ∧
    Block.validate { sealed1 with body := tamperedBody } = false :=
  validateChain_sound_and_complete.2 bc1 1 sealed1 tamperedBody (by decide) (by decide)
    (by decide)

/-- C7: `getStarsByWalletAddress` returns exactly the decoded star payloads of
the blocks with height > 0 whose decoded body names the given owner,
preserving chain order and excluding Genesis, in decoded form — the
accumulating loop of the code agrees with the spec's filter-and-decode
description for every chain state and address. -/
theorem getStars_matches_spec (self : Blockchain) (address : String) :
    Blockchain.getStarsByWalletAddress self address = starsOwnedSpec self address := by
  unfold Blockchain.getStarsByWalletAddress starsOwnedSpec
  exact starsGo_filterMap address self.chain

/-- C8: the challenge message is exactly the address, a colon, the decimal
Unix seconds at issuance, and the literal suffix `:starRegistry`; splitting it
at colons, for a colon-free address, recovers precisely those three fields. -/
theorem requestMessage_exact_grammar (address : String) (nowSec : Nat) :
    requestMessageOwnershipVerification address nowSec
      = address ++ ":" ++ Nat.repr nowSec ++ ":starRegistry" ∧
    (':' ∉ address.data →
      jsSplit ':' (requestMessageOwnershipVerification address nowSec)
        = [address, Nat.repr nowSec, "starRegistry"]) :=
  ⟨rfl, fun h => jsSplit_message address nowSec h⟩

/-- Witness for C8: the challenge for address `1xyz` at a concrete time splits
into exactly the three fields. -/
theorem requestMessage_exact_grammar_witness :
    jsSplit ':' (requestMessageOwnershipVerification "1xyz" 1700000000)
      = ["1xyz", Nat.repr 1700000000, "starRegistry"] :=
  (requestMessage_exact_grammar "1xyz" 1700000000).2 (by decide)

/-- C9: altering the stored hash of a committed block that has a successor,
while leaving its other fields unchanged, makes `validateChain` report exactly
two errors in order: the block's own failed self-check, and the successor's
`previousBlockHash` no longer matching the altered hash. -/
theorem corrupt_hash_reports_two_errors (self : Blockchain) (i : Nat) (b0 b1 : Block)
    (nh : Option Digest) (hnil : Blockchain.validateChain self = [])
    (hidx : self.chain[i]? = some b0) (hsucc : self.chain[i + 1]? = some b1)
    (hne : nh ≠ b0.hash) :
    Blockchain.validateChain { self with chain := self.chain.set i { b0 with hash := nh } }
      = [ChainError.blockNotValid, ChainError.incompatiblePreviousHash] ∧
    Block.validate { b0 with hash := nh } = false ∧
    b1.previousBlockHash ≠ nh := by
  refine ⟨walk_set_hash self.chain none i b0 b1 nh hnil hidx hsucc hne, ?_, ?_⟩
  · have hnil2 : walk none self.chain = [] := hnil
    rw [walk_eq_nil_iff] at hnil2
    have hv : Block.validate b0 = true :=
      hnil2.1 b0 (List.mem_iff_getElem?.mpr ⟨i, hidx⟩)
    apply decide_eq_false
    intro hcontra
    rw [digestOf_set_hash] at hcontra
    exact hne (by rw [of_decide_eq_true hv]; exact hcontra)
  · have hnil2 : walk none self.chain = [] := hnil
    rw [walk_eq_nil_iff] at hnil2
    have hlink : b1.previousBlockHash = b0.hash := hnil2.2.2 i b0 b1 hidx hsucc
    rw [hlink]
    exact fun hcontra => hne hcontra.symm

/-- Witness for C9: clearing the Genesis block's stored hash in the two-block
fixture chain yields exactly the self-check error and the successor's linkage
error. -/
theorem corrupt_hash_reports_two_errors_witness :
    Blockchain.validateChain { bc1 with chain := bc1.chain.set 0 { gBlock with hash := none } }
      = [ChainError.blockNotValid, ChainError.incompatiblePreviousHash] ∧
    Block.validate { gBlock with hash := none } = false ∧
    sealed1.previousBlockHash ≠ none :=
  corrupt_hash_reports_two_errors bc1 0 gBlock sealed1 none (by decide) (by decide)
    (by decide) (by decide)

/-- C10: in every reachable chain state, `getChainHeight` returns -1 exactly
when the chain array is empty (before the Genesis commit), and otherwise it
returns the height of the last committed block, which equals the chain length
minus 1. -/
theorem chainHeight_sentinel (self : Blockchain) (hre : Reachable self) :
    (Blockchain.getChainHeight self = -1 ↔ self.chain = []) ∧
    (∀ b : Block, self.chain.getLast? = some b →
      Blockchain.getChainHeight self = b.height ∧
      Blockchain.getChainHeight self = (self.chain.length : Int) - 1) := by
  obtain ⟨hc, hh, _, _, _⟩ := reachable_chainInv self hre
  constructor
  · constructor
    · intro h
      have hlen : (self.chain.length : Int) - 1 = -1 := by
        rw [← hc]
        exact h
      have : self.chain.length = 0 := by omega
      exact List.length_eq_zero.mp this
    · intro h
      show self.height = -1
      rw [hc, h]
      rfl
  · intro b hb
    rw [List.getLast?_eq_getElem?] at hb
    have hbh := hh _ b hb
    obtain ⟨hlt, _⟩ := List.getElem?_eq_some.mp hb
    constructor
    · show self.height = b.height
      rw [hc, hbh]
      omega
    · exact hc

/-- Witness for C10: on the two-block fixture chain the height counter equals
the tail block's height and the chain length minus 1. -/
theorem chainHeight_sentinel_witness :
    Blockchain.getChainHeight bc1 = sealed1.height ∧
    Blockchain.getChainHeight bc1 = (bc1.chain.length : Int) - 1 :=
  (chainHeight_sentinel bc1 reachable_bc1).2 sealed1 (by decide)

end PBC
